import Mathlib

/-!
Verification of the nouns-world-directory normalisation / filtering pipeline.

The definitions below are a shallow embedding of `src/NounsDirectory.jsx`
(column resolver, row normaliser, tag vocabulary, filter/search engine),
`api/sheet-proxy.js` (the fetch relay) and the stale-load guard of the v35
loader.  JavaScript strings are modelled as Lean `String` / `List Char`;
fallible code (the `new URL` constructor) returns `Except`/`Option`.
-/

/-! ### JavaScript string primitives -/

/-- Simple (ASCII) case lowering, modelling `String.prototype.toLowerCase`.
Unicode special casings (e.g. U+212A KELVIN SIGN) are elided; every string the
claims exercise is ASCII, and characters this map misses are collapsed to a
hyphen by the slug regex anyway. -/
def jsToLower (c : Char) : Char :=
  if 65 ≤ c.toNat ∧ c.toNat ≤ 90 then Char.ofNat (c.toNat + 32) else c

/-- The WhiteSpace and LineTerminator set recognised by
`String.prototype.trim` (ECMA-262). -/
def isJsSpace (c : Char) : Bool :=
  decide (c.toNat ∈ ([9, 10, 11, 12, 13, 32, 160, 5760, 8192, 8193, 8194,
    8195, 8196, 8197, 8198, 8199, 8200, 8201, 8202, 8232, 8233, 8239, 8287,
    12288, 65279] : List Nat))

/-- Drop the characters satisfying `p` from the end of a list. -/
def dropTrailing (p : Char → Bool) : List Char → List Char
  | [] => []
  | c :: cs =>
    let r := dropTrailing p cs
    if r.isEmpty then (if p c then [] else [c]) else c :: r

/-- Model of `String.prototype.trim` on character lists. -/
def trimL (l : List Char) : List Char :=
  dropTrailing isJsSpace (l.dropWhile isJsSpace)

/-- Model of `s.trim()`. -/
def jsTrim (s : String) : String := ⟨trimL s.data⟩

/-- Model of `s.toLowerCase()`. -/
def lowerS (s : String) : String := ⟨s.data.map jsToLower⟩

/-! ### Slugification

`const slug = (s) => (s || "").toString().trim().toLowerCase()
  .replace(/[^a-z0-9]+/g, "-").replace(/(^-|-$)+/g, "");` -/

/-- Characters the slug keeps: the complement of the regex class
`[^a-z0-9]` (applied after lowering). -/
def isSlugKeep (c : Char) : Bool :=
  decide ((97 ≤ c.toNat ∧ c.toNat ≤ 122) ∨ (48 ≤ c.toNat ∧ c.toNat ≤ 57))

/-- Model of `replace(/[^a-z0-9]+/g, "-")`: every maximal run of non-kept
characters becomes one hyphen.  `inRun` records whether the scanner is inside
such a run (so further run characters are dropped rather than emitted). -/
def collapseAux (inRun : Bool) : List Char → List Char
  | [] => []
  | c :: cs =>
    if isSlugKeep c then c :: collapseAux false cs
    else if inRun then collapseAux true cs
    else '-' :: collapseAux true cs

/-- Model of `replace(/(^-|-$)+/g, "")`.  On every string the slug pipeline
feeds it (a collapse output, which never contains two adjacent hyphens and
hence has at most one hyphen at each end) the regex removes exactly the
leading and the trailing hyphen, which is what this function does. -/
def stripEnds (l : List Char) : List Char :=
  dropTrailing (fun c => c == '-') (l.dropWhile (fun c => c == '-'))

/-- The slug pipeline on character lists: trim, lower, collapse, strip. -/
def slugL (l : List Char) : List Char :=
  stripEnds (collapseAux false ((trimL l).map jsToLower))

/-- The `slug` helper of NounsDirectory.jsx (line 31). -/
def slug (s : String) : String := ⟨slugL s.data⟩

/-! ### List cells

`const parseList = (val) => (val || "").split(/[;,]/)
   .map((v) => v.trim()).filter(Boolean);` -/

/-- The delimiter class `[;,]`. -/
def isDelim (c : Char) : Bool := c == ';' || c == ','

/-- Model of `split(/[;,]/)` (note `"".split` yields `[""]`). -/
def splitDelims : List Char → List (List Char)
  | [] => [[]]
  | c :: cs =>
    if isDelim c then [] :: splitDelims cs
    else
      match splitDelims cs with
      | [] => [[c]]
      | h :: t => (c :: h) :: t

/-- The `parseList` helper of NounsDirectory.jsx (line 34). -/
def parseList (s : String) : List String :=
  ((splitDelims s.data).map (fun l => (⟨trimL l⟩ : String))).filter
    (fun v => v != "")

/-! ### URL hostname

Model of `new URL(link).hostname` for the title fallback. -/

/-- Scan for the first occurrence of the literal `"://"`; returns the scheme
characters before it and the remainder after it. -/
def splitSchemeAux (acc : List Char) : List Char → Option (List Char × List Char)
  | ':' :: '/' :: '/' :: rest => some (acc.reverse, rest)
  | c :: rest => splitSchemeAux (c :: acc) rest
  | [] => none

/-- ASCII letters. -/
def isAsciiAlpha (c : Char) : Bool :=
  decide ((65 ≤ c.toNat ∧ c.toNat ≤ 90) ∨ (97 ≤ c.toNat ∧ c.toNat ≤ 122))

/-- Characters allowed after the first character of a URL scheme. -/
def schemeRestOk (c : Char) : Bool :=
  isAsciiAlpha c || decide (48 ≤ c.toNat ∧ c.toNat ≤ 57) ||
    c == '+' || c == '-' || c == '.'

/-- A valid URL scheme: nonempty, letter first, then letters, digits, `+`,
`-` or `.` (RFC 3986 / WHATWG). -/
def schemeOk : List Char → Bool
  | [] => false
  | c :: cs => isAsciiAlpha c && cs.all schemeRestOk

/-- Characters that terminate the host portion of an authority. -/
def isHostDelim (c : Char) : Bool := c == '/' || c == '?' || c == '#' || c == ':'

/-- Characters a (registrable-domain) host may contain; whitespace and the
other forbidden host code points make `new URL` throw. -/
def hostCharOk (c : Char) : Bool :=
  !(isJsSpace c) && !(c == '@') && !(c == '\\') && !(c == '[') && !(c == ']') &&
    !(c == '%')

/-- Model of `new URL(link).hostname` (WHATWG): accepts strings of the shape
`scheme "://" host [":" port] ["/?#" ...]` and lowercases the host, as the
WHATWG host parser does.  Strings with no `"://"`, a malformed scheme, an
empty host, or a forbidden host character are parse failures (`none`): the
constructor throws a `TypeError`.  Userinfo, IPv6 literals, IDNA mapping and
the special `scheme:host` form without slashes are elided; no claim exercises
them. -/
def urlHostname (link : String) : Option String :=
  match splitSchemeAux [] link.data with
  | none => none
  | some (sch, rest) =>
    if schemeOk sch then
      let host := rest.takeWhile (fun c => !(isHostDelim c))
      if host.isEmpty || !(host.all hostCharOk) then none
      else some ⟨host.map jsToLower⟩
    else none

/-- Model of `hostname.replace(/^www\./, "")` (a single, anchored
replacement). -/
def stripWWW (s : String) : String :=
  match s.data with
  | 'w' :: 'w' :: 'w' :: '.' :: rest => ⟨rest⟩
  | _ => s

/-! ### Column resolver (NounsDirectory.jsx lines 139-158) -/

/-- The key under which a header is indexed: `f.toLowerCase().trim()`. -/
def headerKey (f : String) : String := ⟨trimL (f.data.map jsToLower)⟩

/-- Model of `new Map(fields.map((f) => [f.toLowerCase().trim(), f])).get(k)`:
a `Map` built from an entry list keeps the **last** entry for a duplicated
key. -/
def lookupLast (fields : List String) (k : String) : Option String :=
  (fields.filter (fun f => headerKey f == k)).getLast?

/-- The `pick` closure inside `resolveColumns`: scan the candidates in
priority order, look the lowercased candidate up in the header index, and
return the header found — unless that header is falsy (the empty string),
which the `if (found)` test skips. -/
def pick (fields : List String) : List String → Option String
  | [] => none
  | c :: rest =>
    match lookupLast fields (lowerS c) with
    | some f => if f == "" then pick fields rest else some f
    | none => pick fields rest

/-- The candidate-name table (`CONFIG.COLUMNS` shape). -/
structure CandMap where
  title : List String
  link : List String
  description : List String
  categories : List String
  mainTag : List String
  hiddenTags : List String
  logoUrl : List String
  image : List String

/-- The resolved columns: one optional header per logical field. -/
structure Cols where
  title : Option String
  link : Option String
  description : Option String
  categories : Option String
  mainTag : Option String
  hiddenTags : Option String
  logoUrl : Option String
  image : Option String

/-- Model of `resolveColumns` (NounsDirectory.jsx line 139). -/
def resolveColumns (fields : List String) (candidatesMap : CandMap) : Cols :=
  { title := pick fields candidatesMap.title
    link := pick fields candidatesMap.link
    description := pick fields candidatesMap.description
    categories := pick fields candidatesMap.categories
    mainTag := pick fields candidatesMap.mainTag
    hiddenTags := pick fields candidatesMap.hiddenTags
    logoUrl := pick fields candidatesMap.logoUrl
    image := pick fields candidatesMap.image }

/-- The `CONFIG.COLUMNS` candidate table of NounsDirectory.jsx. -/
def CONFIG_COLUMNS : CandMap :=
  { title := ["Name (with url hyperlinked)", "Name", "Title"]
    link := ["URL", "Link"]
    description := ["Description", "About"]
    categories := ["Category", "Categories"]
    mainTag := ["Main tag", "Main Tag", "Primary tag", "Main category",
                "Main Category"]
    hiddenTags := ["Hidden tags", "Hidden Tags", "Search tags",
                   "Search Keywords"]
    logoUrl := ["Logo URL", "Logo url", "Image URL"]
    image := ["Logo", "Image"] }

/-- The resolver as the specification words it (spec-side definition, for
comparison with `pick`): scan candidates in priority order and return the
first header string — first in header order — whose case-insensitive, trimmed
form matches the candidate. -/
def pickAsSpecified (fields : List String) : List String → Option String
  | [] => none
  | c :: rest =>
    match fields.find? (fun f => headerKey f == lowerS c) with
    | some f => some f
    | none => pickAsSpecified fields rest

/-! ### Row normaliser (NounsDirectory.jsx lines 177-203) -/

/-- The canonical entity one raw row normalises to. -/
structure CanonicalRow where
  key : String
  title : String
  link : String
  description : String
  mainTag : String
  hiddenTags : List String
  legacyCategories : List String
  image : String
deriving Repr, DecidableEq

/-- A raw record: header name to cell text. -/
abbrev RawRow := List (String × String)

/-- Model of `(cols.x && row[cols.x]) || ""` (and of
`cols.x ? row[cols.x] : ""` fed to `parseList`, whose `(val || "")` makes the
two coincide): empty when the column is unresolved, the cell is absent, or
the cell is the empty string. -/
def cell (col : Option String) (row : RawRow) : String :=
  match col with
  | none => ""
  | some h => (row.lookup h).getD ""

/-- Model of the title computation
`String(titleRaw || (link ? new URL(link).hostname.replace(/^www\./, "") :
Untitled-i+1)).trim()` — the outer `.trim()` lands on whichever branch was
selected.  A throwing `new URL` surfaces as `Except.error`. -/
def deriveTitle (titleRaw link : String) (i : Nat) : Except Unit String :=
  if titleRaw ≠ "" then .ok (jsTrim titleRaw)
  else if link ≠ "" then
    match urlHostname link with
    | some h => .ok (jsTrim (stripWWW h))
    | none => .error ()
  else .ok (jsTrim ("Untitled " ++ toString (i + 1)))

/-- One step of the normalisation map inside `complete` (lines 177-203).
Only the title derivation can throw; the remaining fields are pure string
operations. -/
def normalizeRow (cols : Cols) (row : RawRow) (i : Nat) :
    Except Unit CanonicalRow :=
  match deriveTitle (cell cols.title row) (cell cols.link row) i with
  | .error e => .error e
  | .ok title =>
    let description := jsTrim (cell cols.description row)
    let legacyCategories := parseList (cell cols.categories row)
    let mainTag := (parseList (cell cols.mainTag row)).headD ""
    let hidden := parseList (cell cols.hiddenTags row)
    let logoUrl := jsTrim (cell cols.logoUrl row)
    let legacyLogo := jsTrim (cell cols.image row)
    let derivedLogo := if title ≠ "" then "/logos/" ++ slug title ++ ".png" else ""
    let image :=
      if logoUrl ≠ "" then logoUrl
      else if legacyLogo ≠ "" then legacyLogo
      else derivedLogo
    .ok { key := slug title ++ "-" ++ toString i
          title := title
          link := cell cols.link row
          description := description
          mainTag := mainTag
          hiddenTags := hidden
          legacyCategories := legacyCategories
          image := image }

/-! ### Tag vocabulary (NounsDirectory.jsx lines 205-224) -/

/-- Model of `data.some((r) => !!r.mainTag)` (line 206). -/
def hasAnyMain (rows : List CanonicalRow) : Bool :=
  rows.any (fun r => r.mainTag != "")

/-- Insertion into a JS `Set` keeps the first occurrence of each value. -/
def firstDedup (seen : List String) : List String → List String
  | [] => []
  | x :: xs =>
    if seen.contains x then firstDedup seen xs
    else x :: firstDedup (x :: seen) xs

/-- Three-way comparison on naturals. -/
def natCmp (a b : Nat) : Ordering :=
  if a < b then .lt else if b < a then .gt else .eq

/-- Lexicographic three-way comparison on lists of naturals (a proper prefix
compares smaller). -/
def lnCmp : List Nat → List Nat → Ordering
  | [], [] => .eq
  | [], _ :: _ => .lt
  | _ :: _, [] => .gt
  | a :: as, b :: bs =>
    match natCmp a b with
    | .eq => lnCmp as bs
    | o => o

/-- Primary collation key: code points after case folding. -/
def primaryKey (s : String) : List Nat :=
  s.data.map (fun c => (jsToLower c).toNat)

/-- Tertiary collation key: lowercase (0) orders before uppercase (1). -/
def caseKey (s : String) : List Nat :=
  s.data.map (fun c => if 65 ≤ c.toNat ∧ c.toNat ≤ 90 then 1 else 0)

/-- An ASCII model of the default-locale `a.localeCompare(b)` (ICU root
collation restricted to ASCII): case-insensitive primary comparison, then
lowercase-before-uppercase on otherwise equal strings.  In particular
`"a".localeCompare("B") < 0` in every Unicode collation, while the code-point
order has `"B" < "a"`. -/
def localeCmp (a b : String) : Ordering :=
  match lnCmp (primaryKey a) (primaryKey b) with
  | .eq => lnCmp (caseKey a) (caseKey b)
  | o => o

/-- The comparator as a boolean "less or equal". -/
def lcLe (a b : String) : Bool := !(localeCmp a b == .gt)

/-- Ordered insertion used by the model of `Array.prototype.sort`. -/
def insertLC (x : String) : List String → List String
  | [] => [x]
  | y :: ys => if lcLe x y then x :: y :: ys else y :: insertLC x ys

/-- Model of `arr.sort((a, b) => a.localeCompare(b))`: a stable comparison
sort; for the consistent comparator used here the sorted result is unique,
so the choice of algorithm is immaterial. -/
def jsSortLC : List String → List String
  | [] => []
  | x :: xs => insertLC x (jsSortLC xs)

/-- Model of the `allFilterTags` memo (lines 216-224). -/
def allFilterTags (rows : List CanonicalRow) (useMainTagFilters : Bool) :
    List String :=
  let base :=
    if useMainTagFilters then
      rows.filterMap (fun r => if r.mainTag != "" then some r.mainTag else none)
    else
      rows.flatMap (fun r => r.legacyCategories)
  jsSortLC (firstDedup [] base)

/-- The vocabulary actually displayed for a load: the axis switch
`setUseMainTagFilters(data.some((r) => !!r.mainTag))` feeds `allFilterTags`. -/
def vocabulary (rows : List CanonicalRow) : List String :=
  allFilterTags rows (hasAnyMain rows)

/-- Code-point lexicographic strict order on strings — the order the
specification means by "sorted lexicographically" (spec-side definition). -/
def lexLt (a b : String) : Bool :=
  lnCmp (a.data.map Char.toNat) (b.data.map Char.toNat) == .lt

/-! ### Filter and search (NounsDirectory.jsx lines 227-251) -/

/-- The searchable haystack of a row:
`[title, description, mainTag, ...hiddenTags, ...legacyCategories]
  .join(" | ").toLowerCase()`. -/
def haystackOf (r : CanonicalRow) : String :=
  lowerS (String.intercalate " | "
    ([r.title, r.description, r.mainTag] ++ r.hiddenTags ++ r.legacyCategories))

/-- Does `needle` begin `hay`? -/
def pfxMatch : List Char → List Char → Bool
  | [], _ => true
  | _ :: _, [] => false
  | a :: as, b :: bs => a == b && pfxMatch as bs

/-- Model of `hay.includes(needle)`: `needle` occurs contiguously in `hay`. -/
def containsSub (needle : List Char) : List Char → Bool
  | [] => pfxMatch needle []
  | c :: t => pfxMatch needle (c :: t) || containsSub needle t

/-- Model of `query.trim().toLowerCase()`. -/
def qNorm (query : String) : String := ⟨(trimL query.data).map jsToLower⟩

/-- Model of the `filtered` memo (lines 227-251): the tag filter runs first,
the search filter second. -/
def filteredRows (rows : List CanonicalRow) (selectedTags : List String)
    (useMainTagFilters : Bool) (query : String) : List CanonicalRow :=
  let wanted := selectedTags.map slug
  let out :=
    if selectedTags.isEmpty then rows
    else if useMainTagFilters then
      rows.filter (fun r => r.mainTag != "" && wanted.contains (slug r.mainTag))
    else
      rows.filter (fun r => r.legacyCategories.any (fun c => wanted.contains (slug c)))
  if jsTrim query != "" then
    out.filter (fun r => containsSub (qNorm query).data (haystackOf r).data)
  else out

/-! ### Fetch relay (api/sheet-proxy.js) -/

/-- The observable parts of the relay's HTTP response. -/
structure RelayResponse where
  status : Nat
  body : String
  contentType : Option String
  cacheControl : Option String
deriving Repr, DecidableEq

/-- What the upstream `fetch(target)` (plus `upstream.text()`) does. -/
inductive FetchOutcome where
  | throws
  | responds (ok : Bool) (status : Nat) (body : String)

/-- Model of the edge handler in api/sheet-proxy.js.  The upstream behaviour
is passed in as data.  Note that the JS guard `if (!target)` fires both when
the `url` parameter is absent (`get` returned `null`) and when it is present
but empty (`""` is falsy). -/
def handler (target : Option String) (upstream : FetchOutcome) : RelayResponse :=
  match target with
  | none =>
    { status := 400, body := "Missing ?url= parameter"
      contentType := none, cacheControl := none }
  | some t =>
    if t = "" then
      { status := 400, body := "Missing ?url= parameter"
        contentType := none, cacheControl := none }
    else
      match upstream with
      | .throws =>
        { status := 500, body := "Fetch failed"
          contentType := none, cacheControl := none }
      | .responds ok ustatus ubody =>
        if ok then
          { status := 200, body := ubody
            contentType := some "text/csv; charset=utf-8"
            cacheControl := some "public, s-maxage=300, stale-while-revalidate=86400" }
        else
          { status := 502, body := "Upstream error (" ++ toString ustatus ++ ")"
            contentType := none, cacheControl := none }

/-! ### Stale-load guard (v35 loader, src/unnamed/part_001 lines 94-210) -/

/-- The UI state a load commits into. -/
structure UIState where
  rows : List CanonicalRow
  loading : Bool
  error : String
deriving Repr, DecidableEq

/-- The outcome a load arrives at: one of the three source variants parsed
(success), or all of them failed. -/
inductive LoadOutcome where
  | success (rows : List CanonicalRow)
  | failure

/-- The terminal error message of the v35 loader (line 204). -/
def loadFailMsg : String :=
  "We couldn’t parse either the HTML or CSV for this sheet right now. Please try a refresh, or share the /export?format=csv link and I’ll wire that in."

/-- Entry of `load()`: `setLoading(true); setError("")`. -/
def startLoad (s : UIState) : UIState :=
  { s with loading := true, error := "" }

/-- The commit a load performs when its result arrives, with the load's
`aborted` flag at that moment.  Each success branch is guarded by
`if (aborted) return;` immediately before `setRows`/`setLoading`; the
terminal failure path (`setError(...); setLoading(false);`, lines 204-205)
carries no such guard. -/
def commitLoad (aborted : Bool) (res : LoadOutcome) (s : UIState) : UIState :=
  match res with
  | .success rows =>
    if aborted then s else { s with rows := rows, loading := false }
  | .failure => { s with error := loadFailMsg, loading := false }

/-! ### Helper lemmas: characters, `dropWhile`, `dropTrailing`, `trimL` -/

lemma isSlugKeep_iff {c : Char} :
    isSlugKeep c = true ↔
      (97 ≤ c.toNat ∧ c.toNat ≤ 122) ∨ (48 ≤ c.toNat ∧ c.toNat ≤ 57) := by
  simp [isSlugKeep]

lemma isSlugKeep_ne_hyphen {c : Char} (h : isSlugKeep c = true) : c ≠ '-' := by
  intro he
  subst he
  simp [isSlugKeep] at h

lemma isJsSpace_eq_false {c : Char} (h : isSlugKeep c = true ∨ c = '-') :
    isJsSpace c = false := by
  rcases h with h | rfl
  · rw [isSlugKeep_iff] at h
    simp only [isJsSpace, decide_eq_false_iff_not, List.mem_cons,
      List.not_mem_nil, or_false]
    omega
  · decide

lemma jsToLower_eq_self {c : Char} (h : isSlugKeep c = true ∨ c = '-') :
    jsToLower c = c := by
  rcases h with h | rfl
  · rw [isSlugKeep_iff] at h
    unfold jsToLower
    rw [if_neg (by omega)]
  · decide

lemma map_eq_self_of_fix {f : Char → Char} :
    ∀ {l : List Char}, (∀ c ∈ l, f c = c) → l.map f = l := by
  intro l
  induction l with
  | nil => intro _; rfl
  | cons x xs ih =>
    intro h
    simp only [List.map_cons]
    rw [h x (by simp), ih (fun c hc => h c (by simp [hc]))]

lemma dropWhile_eq_self_of_all {p : Char → Bool} {l : List Char}
    (h : ∀ c ∈ l, p c = false) : l.dropWhile p = l := by
  cases l with
  | nil => rfl
  | cons x xs =>
    rw [List.dropWhile_cons, h x (by simp)]
    simp

lemma head?_dropWhile_false {p : Char → Bool} :
    ∀ {l : List Char} {c : Char}, (l.dropWhile p).head? = some c → p c = false := by
  intro l
  induction l with
  | nil => intro c h; simp at h
  | cons x xs ih =>
    intro c h
    rw [List.dropWhile_cons] at h
    by_cases hx : p x
    · rw [if_pos hx] at h
      exact ih h
    · rw [if_neg hx] at h
      simp only [List.head?_cons, Option.some.injEq] at h
      subst h
      exact Bool.not_eq_true _ ▸ (by simpa using hx)

lemma chain'_dropWhile {R : Char → Char → Prop} {p : Char → Bool} :
    ∀ {l : List Char}, List.Chain' R l → List.Chain' R (l.dropWhile p) := by
  intro l
  induction l with
  | nil => intro h; exact h
  | cons x xs ih =>
    intro h
    rw [List.dropWhile_cons]
    by_cases hx : p x
    · rw [if_pos hx]
      exact ih h.tail
    · rw [if_neg hx]
      exact h

lemma mem_dropTrailing {p : Char → Bool} :
    ∀ {l : List Char} {c : Char}, c ∈ dropTrailing p l → c ∈ l := by
  intro l
  induction l with
  | nil => intro c h; simp [dropTrailing] at h
  | cons x xs ih =>
    intro c h
    simp only [dropTrailing] at h
    by_cases hr : (dropTrailing p xs).isEmpty
    · rw [if_pos hr] at h
      by_cases hx : p x
      · rw [if_pos hx] at h; simp at h
      · rw [if_neg hx] at h
        simp at h
        simp [h]
    · rw [if_neg hr] at h
      rcases List.mem_cons.mp h with rfl | h
      · simp
      · simp [ih h]

lemma getLast?_dropTrailing_false {p : Char → Bool} :
    ∀ {l : List Char} {c : Char},
      (dropTrailing p l).getLast? = some c → p c = false := by
  intro l
  induction l with
  | nil => intro c h; simp [dropTrailing] at h
  | cons x xs ih =>
    intro c h
    simp only [dropTrailing] at h
    by_cases hr : (dropTrailing p xs).isEmpty
    · rw [if_pos hr] at h
      by_cases hx : p x
      · rw [if_pos hx] at h; simp at h
      · rw [if_neg hx] at h
        simp only [List.getLast?_singleton, Option.some.injEq] at h
        subst h
        simpa using hx
    · rw [if_neg hr] at h
      cases hd : dropTrailing p xs with
      | nil => rw [hd] at hr; simp at hr
      | cons y ys =>
        rw [hd, List.getLast?_cons_cons] at h
        exact ih (hd ▸ h)

lemma head?_dropTrailing {p : Char → Bool} :
    ∀ {l : List Char} {c : Char},
      (dropTrailing p l).head? = some c → l.head? = some c := by
  intro l
  induction l with
  | nil => intro c h; simp [dropTrailing] at h
  | cons x xs _ =>
    intro c h
    simp only [dropTrailing] at h
    by_cases hr : (dropTrailing p xs).isEmpty
    · rw [if_pos hr] at h
      by_cases hx : p x
      · rw [if_pos hx] at h; simp at h
      · rw [if_neg hx] at h
        simpa using h
    · rw [if_neg hr] at h
      simpa using h

lemma chain'_dropTrailing {R : Char → Char → Prop} {p : Char → Bool} :
    ∀ {l : List Char}, List.Chain' R l → List.Chain' R (dropTrailing p l) := by
  intro l
  induction l with
  | nil => intro h; exact h
  | cons x xs ih =>
    intro h
    simp only [dropTrailing]
    by_cases hr : (dropTrailing p xs).isEmpty
    · rw [if_pos hr]
      by_cases hx : p x
      · rw [if_pos hx]; exact List.chain'_nil
      · rw [if_neg hx]; exact List.chain'_singleton x
    · rw [if_neg hr]
      rw [List.chain'_cons']
      constructor
      · intro y hy
        have hxs : xs.head? = some y := head?_dropTrailing hy
        exact (List.chain'_cons'.mp h).1 y hxs
      · exact ih h.tail

lemma dropTrailing_eq_self_of_all {p : Char → Bool} :
    ∀ {l : List Char}, (∀ c ∈ l, p c = false) → dropTrailing p l = l := by
  intro l
  induction l with
  | nil => intro _; rfl
  | cons x xs ih =>
    intro h
    have hxs : dropTrailing p xs = xs := ih (fun c hc => h c (by simp [hc]))
    simp only [dropTrailing, hxs]
    cases xs with
    | nil => simp [h x (by simp)]
    | cons y ys => simp

lemma dropTrailing_ne_nil {p : Char → Bool} {c : Char} {cs : List Char}
    (h : p c = false) : dropTrailing p (c :: cs) ≠ [] := by
  simp only [dropTrailing]
  by_cases hr : (dropTrailing p cs).isEmpty
  · rw [if_pos hr, h]
    simp
  · rw [if_neg hr]
    simp

lemma trimL_eq_self_of_all {l : List Char}
    (h : ∀ c ∈ l, isJsSpace c = false) : trimL l = l := by
  unfold trimL
  rw [dropWhile_eq_self_of_all h, dropTrailing_eq_self_of_all h]

lemma trimL_cons_ne_nil {c : Char} {cs : List Char}
    (h : isJsSpace c = false) : trimL (c :: cs) ≠ [] := by
  unfold trimL
  rw [List.dropWhile_cons, h]
  simp only [Bool.false_eq_true, if_false]
  exact dropTrailing_ne_nil h

/-! ### Helper lemmas: collapse and slug idempotence -/

/-- The no-adjacent-hyphens relation maintained by `collapseAux`. -/
def NoHH (a b : Char) : Prop := ¬(a = '-' ∧ b = '-')

lemma collapseAux_chars {b : Bool} :
    ∀ {l : List Char} {c : Char}, c ∈ collapseAux b l →
      isSlugKeep c = true ∨ c = '-' := by
  intro l
  induction l generalizing b with
  | nil => intro c h; simp [collapseAux] at h
  | cons x xs ih =>
    intro c h
    simp only [collapseAux] at h
    by_cases hx : isSlugKeep x
    · rw [if_pos hx] at h
      rcases List.mem_cons.mp h with rfl | h
      · exact Or.inl hx
      · exact ih h
    · rw [if_neg hx] at h
      by_cases hb : b
      · rw [if_pos hb] at h
        exact ih h
      · rw [if_neg hb] at h
        rcases List.mem_cons.mp h with rfl | h
        · exact Or.inr rfl
        · exact ih h

lemma collapseAux_true_head :
    ∀ {l : List Char} {c : Char}, (collapseAux true l).head? = some c →
      c ≠ '-' := by
  intro l
  induction l with
  | nil => intro c h; simp [collapseAux] at h
  | cons x xs ih =>
    intro c h
    simp only [collapseAux] at h
    by_cases hx : isSlugKeep x
    · rw [if_pos hx] at h
      simp only [List.head?_cons, Option.some.injEq] at h
      subst h
      exact isSlugKeep_ne_hyphen hx
    · rw [if_neg hx, if_pos trivial] at h
      exact ih h

lemma chain'_collapseAux {b : Bool} :
    ∀ {l : List Char}, List.Chain' NoHH (collapseAux b l) := by
  intro l
  induction l generalizing b with
  | nil => simp [collapseAux]
  | cons x xs ih =>
    simp only [collapseAux]
    by_cases hx : isSlugKeep x
    · rw [if_pos hx]
      rw [List.chain'_cons']
      refine ⟨fun y _ => ?_, ih⟩
      exact fun hc => isSlugKeep_ne_hyphen hx hc.1
    · rw [if_neg hx]
      by_cases hb : b
      · rw [if_pos hb]; exact ih
      · rw [if_neg hb]
        rw [List.chain'_cons']
        refine ⟨fun y hy => ?_, ih⟩
        exact fun hc => collapseAux_true_head hy hc.2

lemma dropWhile_eq_self_of_head {p : Char → Bool} {l : List Char}
    (h : ∀ c, l.head? = some c → p c = false) : l.dropWhile p = l := by
  cases l with
  | nil => rfl
  | cons x xs =>
    rw [List.dropWhile_cons, h x rfl]
    simp

lemma dropTrailing_eq_self_of_getLast {p : Char → Bool} :
    ∀ {l : List Char}, (∀ c, l.getLast? = some c → p c = false) →
      dropTrailing p l = l := by
  intro l
  induction l with
  | nil => intro _; rfl
  | cons x xs ih =>
    intro h
    cases xs with
    | nil =>
      have hx : p x = false := h x (by simp)
      simp [dropTrailing, hx]
    | cons y ys =>
      have hxs : dropTrailing p (y :: ys) = y :: ys :=
        ih (fun c hc => h c (by rw [List.getLast?_cons_cons]; exact hc))
      show (if (dropTrailing p (y :: ys)).isEmpty then
              (if p x then [] else [x])
            else x :: dropTrailing p (y :: ys)) = x :: y :: ys
      rw [hxs]
      simp

lemma collapseAux_fix :
    ∀ {l : List Char}, (∀ c ∈ l, isSlugKeep c = true ∨ c = '-') →
      List.Chain' NoHH l →
      (collapseAux false l = l ∧
        ((∀ c, l.head? = some c → c ≠ '-') → collapseAux true l = l)) := by
  intro l
  induction l with
  | nil => intro _ _; exact ⟨rfl, fun _ => rfl⟩
  | cons x xs ih =>
    intro hchars hch
    have ihxs := ih (fun c hc => hchars c (by simp [hc])) hch.tail
    by_cases hx : isSlugKeep x
    · refine ⟨?_, fun _ => ?_⟩
      · simp only [collapseAux, if_pos hx]
        rw [ihxs.1]
      · simp only [collapseAux, if_pos hx]
        rw [ihxs.1]
    · have hx' : x = '-' := by
        rcases hchars x (by simp) with h | h
        · exact absurd h hx
        · exact h
      subst hx'
      have hhd : ∀ c, xs.head? = some c → c ≠ '-' := by
        intro c hc he
        exact (List.chain'_cons'.mp hch).1 c hc ⟨rfl, he⟩
      refine ⟨?_, fun hhead => ?_⟩
      · simp only [collapseAux, if_neg hx]
        rw [if_neg (by simp), ihxs.2 hhd]
      · exact absurd rfl (hhead '-' (by simp))

lemma slugL_chars {l : List Char} {c : Char} (h : c ∈ slugL l) :
    isSlugKeep c = true ∨ c = '-' := by
  unfold slugL stripEnds at h
  have h1 := mem_dropTrailing h
  have h2 : c ∈ collapseAux false ((trimL l).map jsToLower) :=
    (List.dropWhile_sublist _).mem h1
  exact collapseAux_chars h2

lemma slugL_chain {l : List Char} : List.Chain' NoHH (slugL l) := by
  unfold slugL stripEnds
  exact chain'_dropTrailing (chain'_dropWhile chain'_collapseAux)

lemma slugL_head {l : List Char} {c : Char} (h : (slugL l).head? = some c) :
    c ≠ '-' := by
  unfold slugL stripEnds at h
  have h1 := head?_dropTrailing h
  have h2 := head?_dropWhile_false h1
  simpa using h2

lemma slugL_last {l : List Char} {c : Char} (h : (slugL l).getLast? = some c) :
    c ≠ '-' := by
  unfold slugL stripEnds at h
  have := getLast?_dropTrailing_false h
  simpa using this

lemma slugL_fix {l : List Char} : slugL (slugL l) = slugL l := by
  have hchars : ∀ c ∈ slugL l, isSlugKeep c = true ∨ c = '-' :=
    fun c hc => slugL_chars hc
  have hsp : ∀ c ∈ slugL l, isJsSpace c = false :=
    fun c hc => isJsSpace_eq_false (hchars c hc)
  have h1 : trimL (slugL l) = slugL l := trimL_eq_self_of_all hsp
  have h2 : (slugL l).map jsToLower = slugL l :=
    map_eq_self_of_fix (fun c hc => jsToLower_eq_self (hchars c hc))
  have h3 : collapseAux false (slugL l) = slugL l :=
    (collapseAux_fix hchars slugL_chain).1
  have h4 : stripEnds (slugL l) = slugL l := by
    unfold stripEnds
    rw [dropWhile_eq_self_of_head
        (fun c hc => by simpa using slugL_head (l := l) hc)]
    exact dropTrailing_eq_self_of_getLast
      (fun c hc => by simpa using slugL_last (l := l) hc)
  show stripEnds (collapseAux false ((trimL (slugL l)).map jsToLower)) = slugL l
  rw [h1, h2, h3, h4]

/-- C3: the slugification function is total and deterministic (it is a plain
Lean function defined exactly as the source chain trim → lowercase → collapse
runs of non-`[a-z0-9]` to one hyphen → strip boundary hyphens), it is
idempotent — `slug (slug x) = slug x` for every string `x` — and it maps the
empty string to the empty string. -/
theorem c3_slug_idempotent :
    (∀ s : String, slug (slug s) = slug s) ∧ slug "" = "" := by
  refine ⟨fun s => ?_, rfl⟩
  apply String.ext
  show slugL (slugL s.data) = slugL s.data
  exact slugL_fix

/-! ### Helper lemmas: the locale comparator and sorting -/

lemma natCmp_lt_iff {a b : Nat} : natCmp a b = Ordering.lt ↔ a < b := by
  unfold natCmp
  split
  · simpa
  · split <;> simp <;> omega

lemma natCmp_eq_iff {a b : Nat} : natCmp a b = Ordering.eq ↔ a = b := by
  unfold natCmp
  split
  · simp; omega
  · split
    · simp; omega
    · simp; omega

lemma natCmp_swap (a b : Nat) : natCmp b a = (natCmp a b).swap := by
  rcases Nat.lt_trichotomy a b with h | rfl | h
  · simp [natCmp, h, Nat.lt_asymm h, Ordering.swap]
  · simp [natCmp, Ordering.swap]
  · simp [natCmp, h, Nat.lt_asymm h, Ordering.swap]

lemma lnCmp_eq : ∀ {a b : List Nat}, lnCmp a b = Ordering.eq → a = b := by
  intro a
  induction a with
  | nil =>
    intro b h
    cases b with
    | nil => rfl
    | cons y bs => simp [lnCmp] at h
  | cons x as ih =>
    intro b h
    cases b with
    | nil => simp [lnCmp] at h
    | cons y bs =>
      simp only [lnCmp] at h
      cases hn : natCmp x y with
      | eq =>
        rw [hn] at h
        rw [natCmp_eq_iff.mp hn, ih h]
      | lt => rw [hn] at h; simp at h
      | gt => rw [hn] at h; simp at h

lemma lnCmp_refl : ∀ (a : List Nat), lnCmp a a = Ordering.eq := by
  intro a
  induction a with
  | nil => rfl
  | cons x as ih =>
    simp only [lnCmp]
    rw [natCmp_eq_iff.mpr rfl, ih]

lemma lnCmp_swap : ∀ (a b : List Nat), lnCmp b a = (lnCmp a b).swap := by
  intro a
  induction a with
  | nil =>
    intro b
    cases b <;> rfl
  | cons x as ih =>
    intro b
    cases b with
    | nil => rfl
    | cons y bs =>
      simp only [lnCmp]
      rw [natCmp_swap x y]
      cases natCmp x y with
      | eq => exact ih bs
      | lt => rfl
      | gt => rfl

lemma lnCmp_lt_trans :
    ∀ {a b c : List Nat}, lnCmp a b = Ordering.lt → lnCmp b c = Ordering.lt →
      lnCmp a c = Ordering.lt := by
  intro a
  induction a with
  | nil =>
    intro b c hab hbc
    cases b with
    | nil => simp [lnCmp] at hab
    | cons y bs =>
      cases c with
      | nil => simp [lnCmp] at hbc
      | cons z cs => rfl
  | cons x as ih =>
    intro b c hab hbc
    cases b with
    | nil => simp [lnCmp] at hab
    | cons y bs =>
      cases c with
      | nil => simp [lnCmp] at hbc
      | cons z cs =>
        simp only [lnCmp] at hab hbc ⊢
        cases hxy : natCmp x y with
        | lt =>
          rw [hxy] at hab
          cases hyz : natCmp y z with
          | lt =>
            have hxz : natCmp x z = Ordering.lt :=
              natCmp_lt_iff.mpr
                (Nat.lt_trans (natCmp_lt_iff.mp hxy) (natCmp_lt_iff.mp hyz))
            rw [hxz]
          | eq =>
            have hyz' : y = z := natCmp_eq_iff.mp hyz
            subst hyz'
            rw [hxy]
          | gt =>
            rw [hyz] at hbc
            exact absurd hbc (by simp)
        | eq =>
          rw [hxy] at hab
          have hxy' : x = y := natCmp_eq_iff.mp hxy
          subst hxy'
          cases hyz : natCmp x z with
          | lt => rfl
          | eq =>
            rw [hyz] at hbc
            exact ih hab hbc
          | gt =>
            rw [hyz] at hbc
            exact absurd hbc (by simp)
        | gt =>
          rw [hxy] at hab
          exact absurd hab (by simp)

lemma lnCmp_le_trans {a b c : List Nat}
    (h1 : lnCmp a b ≠ Ordering.gt) (h2 : lnCmp b c ≠ Ordering.gt) :
    lnCmp a c ≠ Ordering.gt := by
  cases o1 : lnCmp a b with
  | gt => exact absurd o1 h1
  | eq => rw [lnCmp_eq o1]; exact h2
  | lt =>
    cases o2 : lnCmp b c with
    | gt => exact absurd o2 h2
    | eq => rw [← lnCmp_eq o2]; rw [o1]; simp
    | lt => rw [lnCmp_lt_trans o1 o2]; simp

lemma localeCmp_swap (a b : String) : localeCmp b a = (localeCmp a b).swap := by
  unfold localeCmp
  rw [lnCmp_swap (primaryKey a) (primaryKey b),
    lnCmp_swap (caseKey a) (caseKey b)]
  cases lnCmp (primaryKey a) (primaryKey b) <;> rfl

lemma localeCmp_le_trans {a b c : String}
    (h1 : localeCmp a b ≠ Ordering.gt) (h2 : localeCmp b c ≠ Ordering.gt) :
    localeCmp a c ≠ Ordering.gt := by
  unfold localeCmp at h1 h2 ⊢
  cases o1 : lnCmp (primaryKey a) (primaryKey b) with
  | gt => rw [o1] at h1; exact absurd rfl h1
  | eq =>
    rw [o1] at h1
    have he1 : primaryKey a = primaryKey b := lnCmp_eq o1
    cases o2 : lnCmp (primaryKey b) (primaryKey c) with
    | gt => rw [o2] at h2; exact absurd rfl h2
    | eq =>
      rw [o2] at h2
      have he2 : primaryKey b = primaryKey c := lnCmp_eq o2
      rw [he1, he2, lnCmp_refl]
      have hc1 : lnCmp (caseKey a) (caseKey b) ≠ Ordering.gt := h1
      have hc2 : lnCmp (caseKey b) (caseKey c) ≠ Ordering.gt := h2
      have := lnCmp_le_trans hc1 hc2
      intro hcon
      exact this hcon
    | lt =>
      rw [he1, o2]
      simp
  | lt =>
    cases o2 : lnCmp (primaryKey b) (primaryKey c) with
    | gt => rw [o2] at h2; exact absurd rfl h2
    | eq =>
      have he2 : primaryKey b = primaryKey c := lnCmp_eq o2
      rw [← he2, o1]
      simp
    | lt =>
      rw [lnCmp_lt_trans o1 o2]
      simp

lemma lcLe_iff {a b : String} : lcLe a b = true ↔ localeCmp a b ≠ Ordering.gt := by
  unfold lcLe
  cases localeCmp a b <;> decide

lemma lcLe_total (a b : String) : lcLe a b = true ∨ lcLe b a = true := by
  by_cases h : localeCmp a b = Ordering.gt
  · right
    rw [lcLe_iff, localeCmp_swap, h]
    simp [Ordering.swap]
  · left
    exact lcLe_iff.mpr h

lemma lcLe_trans {a b c : String} (h1 : lcLe a b = true) (h2 : lcLe b c = true) :
    lcLe a c = true :=
  lcLe_iff.mpr (localeCmp_le_trans (lcLe_iff.mp h1) (lcLe_iff.mp h2))

lemma insertLC_perm (x : String) (l : List String) :
    (insertLC x l).Perm (x :: l) := by
  induction l with
  | nil => exact List.Perm.refl _
  | cons y ys ih =>
    simp only [insertLC]
    by_cases h : lcLe x y
    · rw [if_pos h]
    · rw [if_neg h]
      exact (ih.cons y).trans (List.Perm.swap x y ys)

lemma mem_insertLC {a x : String} {l : List String} :
    a ∈ insertLC x l ↔ a = x ∨ a ∈ l := by
  rw [(insertLC_perm x l).mem_iff]
  simp

lemma sorted_insertLC {x : String} {l : List String}
    (h : List.Sorted (fun a b => lcLe a b = true) l) :
    List.Sorted (fun a b => lcLe a b = true) (insertLC x l) := by
  induction l with
  | nil => simp [insertLC]
  | cons y ys ih =>
    simp only [insertLC]
    by_cases hxy : lcLe x y
    · rw [if_pos hxy]
      rw [List.sorted_cons]
      refine ⟨?_, h⟩
      intro b hb
      rcases List.mem_cons.mp hb with rfl | hb
      · exact hxy
      · exact lcLe_trans hxy ((List.sorted_cons.mp h).1 b hb)
    · rw [if_neg hxy]
      have hyx : lcLe y x = true := by
        rcases lcLe_total x y with h' | h'
        · exact absurd h' hxy
        · exact h'
      rw [List.sorted_cons]
      refine ⟨?_, ih (List.sorted_cons.mp h).2⟩
      intro b hb
      rcases mem_insertLC.mp hb with rfl | hb
      · exact hyx
      · exact (List.sorted_cons.mp h).1 b hb

lemma jsSortLC_perm : ∀ (l : List String), (jsSortLC l).Perm l := by
  intro l
  induction l with
  | nil => exact List.Perm.refl _
  | cons x xs ih =>
    simp only [jsSortLC]
    exact (insertLC_perm x (jsSortLC xs)).trans (ih.cons x)

lemma sorted_jsSortLC :
    ∀ (l : List String), List.Sorted (fun a b => lcLe a b = true) (jsSortLC l) := by
  intro l
  induction l with
  | nil => simp [jsSortLC]
  | cons x xs ih => exact sorted_insertLC ih

lemma mem_firstDedup {x : String} :
    ∀ {l seen : List String}, x ∈ firstDedup seen l ↔ x ∈ l ∧ x ∉ seen := by
  intro l
  induction l with
  | nil => intro seen; simp [firstDedup]
  | cons y ys ih =>
    intro seen
    simp only [firstDedup]
    by_cases hy : seen.contains y
    · rw [if_pos hy]
      rw [ih]
      constructor
      · rintro ⟨h1, h2⟩
        exact ⟨by simp [h1], h2⟩
      · rintro ⟨h1, h2⟩
        rcases List.mem_cons.mp h1 with rfl | h1
        · exact absurd (List.elem_iff.mp hy) h2
        · exact ⟨h1, h2⟩
    · rw [if_neg hy]
      constructor
      · intro h
        rcases List.mem_cons.mp h with rfl | h
        · refine ⟨by simp, fun hc => hy (List.elem_iff.mpr hc)⟩
        · obtain ⟨h1, h2⟩ := ih.mp h
          refine ⟨by simp [h1], fun hc => h2 (by simp [hc])⟩
      · rintro ⟨h1, h2⟩
        rcases List.mem_cons.mp h1 with rfl | h1
        · exact List.mem_cons_self _ _
        · by_cases hxy : x = y
          · subst hxy; exact List.mem_cons_self _ _
          · exact List.mem_cons_of_mem _ (ih.mpr ⟨h1, by simp [hxy, h2]⟩)

lemma nodup_firstDedup : ∀ (l seen : List String), (firstDedup seen l).Nodup := by
  intro l
  induction l with
  | nil => intro seen; simp [firstDedup]
  | cons y ys ih =>
    intro seen
    simp only [firstDedup]
    by_cases hy : seen.contains y
    · rw [if_pos hy]; exact ih seen
    · rw [if_neg hy]
      refine List.nodup_cons.mpr ⟨?_, ih (y :: seen)⟩
      intro hc
      exact (mem_firstDedup.mp hc).2 (by simp)

lemma mem_allFilterTags_main {rows : List CanonicalRow} {t : String} :
    t ∈ allFilterTags rows true ↔ ∃ r ∈ rows, r.mainTag = t ∧ t ≠ "" := by
  unfold allFilterTags
  rw [(jsSortLC_perm _).mem_iff, mem_firstDedup]
  simp only [List.not_mem_nil, not_false_iff, and_true, if_true]
  rw [List.mem_filterMap]
  constructor
  · rintro ⟨r, hr, hf⟩
    by_cases hm : r.mainTag != ""
    · rw [if_pos hm] at hf
      obtain rfl := Option.some.inj hf
      exact ⟨r, hr, rfl, by simpa using hm⟩
    · rw [if_neg hm] at hf
      cases hf
  · rintro ⟨r, hr, rfl, ht⟩
    refine ⟨r, hr, ?_⟩
    rw [if_pos (by simpa using ht)]

lemma mem_allFilterTags_legacy {rows : List CanonicalRow} {t : String} :
    t ∈ allFilterTags rows false ↔ ∃ r ∈ rows, t ∈ r.legacyCategories := by
  unfold allFilterTags
  rw [(jsSortLC_perm _).mem_iff, mem_firstDedup]
  simp only [List.not_mem_nil, not_false_iff, and_true, if_false,
    Bool.false_eq_true]
  exact List.mem_flatMap

lemma allFilterTags_sorted_nodup (rows : List CanonicalRow) (u : Bool) :
    List.Sorted (fun a b => lcLe a b = true) (allFilterTags rows u) ∧
      (allFilterTags rows u).Nodup := by
  unfold allFilterTags
  exact ⟨sorted_jsSortLC _, (jsSortLC_perm _).nodup_iff.mpr (nodup_firstDedup _ _)⟩

/-- C5: amended — for every loaded row set the vocabulary is chosen by the
single global switch `hasAnyMain` (the two axes are never mixed): under the
main-tag axis it contains exactly the distinct non-empty `mainTag` values,
otherwise exactly the union of `legacyCategories` values; the list is
duplicate-free and sorted — not in code-point lexicographic order as the
claim states, but by the locale-aware comparator `localeCmp` (the code sorts
with `a.localeCompare(b)`), which is case-insensitive-first and coincides
with lexicographic order on uniformly-cased vocabularies. -/
theorem c5_tag_vocabulary :
    (∀ (rows : List CanonicalRow) (t : String), hasAnyMain rows = true →
        (t ∈ vocabulary rows ↔ ∃ r ∈ rows, r.mainTag = t ∧ t ≠ "")) ∧
    (∀ (rows : List CanonicalRow) (t : String), hasAnyMain rows = false →
        (t ∈ vocabulary rows ↔ ∃ r ∈ rows, t ∈ r.legacyCategories)) ∧
    (∀ (rows : List CanonicalRow) (u : Bool),
        List.Sorted (fun a b => lcLe a b = true) (allFilterTags rows u) ∧
          (allFilterTags rows u).Nodup) := by
  refine ⟨fun rows t h => ?_, fun rows t h => ?_, allFilterTags_sorted_nodup⟩
  · unfold vocabulary
    rw [h]
    exact mem_allFilterTags_main
  · unfold vocabulary
    rw [h]
    exact mem_allFilterTags_legacy

/-- A one-row load whose row carries the main tag `"Art"`. -/
def c5rowsW : List CanonicalRow :=
  [{ key := "t-0", title := "t", link := "", description := "",
     mainTag := "Art", hiddenTags := [], legacyCategories := [], image := "" }]

/-- Witness for `c5_tag_vocabulary` at a concrete one-row load. -/
theorem c5_tag_vocabulary_witness :
    hasAnyMain c5rowsW = true ∧
      ("Art" ∈ vocabulary c5rowsW ↔
        ∃ r ∈ c5rowsW, r.mainTag = "Art" ∧ "Art" ≠ "") :=
  ⟨by decide, c5_tag_vocabulary.1 c5rowsW "Art" (by decide)⟩

/-- A row whose main tag is the lowercase `"a"`. -/
def c5rowA : CanonicalRow :=
  { key := "t1-0", title := "t1", link := "", description := "",
    mainTag := "a", hiddenTags := [], legacyCategories := [], image := "" }

/-- A row whose main tag is the uppercase `"B"`. -/
def c5rowB : CanonicalRow :=
  { key := "t2-1", title := "t2", link := "", description := "",
    mainTag := "B", hiddenTags := [], legacyCategories := [], image := "" }

/-- C5 counterexample: the vocabulary is **not** the distinct values sorted
lexicographically.  With main tags `"a"` and `"B"` the code produces
`["a", "B"]` (locale order: `"a".localeCompare("B") < 0`), while in
code-point lexicographic order `"B" < "a"`, so the lexicographically sorted
distinct list would be `["B", "a"]`; the produced list is not even
lexicographically ordered, since its adjacent pair is strictly descending. -/
theorem c5_sort_not_lexicographic :
    vocabulary [c5rowA, c5rowB] = ["a", "B"] ∧
      lexLt "B" "a" = true ∧ lexLt "a" "B" = false := by
  refine ⟨by decide, by decide, by decide⟩

/-! ### Column-resolver lemmas -/

lemma lookupLast_eq_find? {fields : List String} {k : String}
    (h : List.Pairwise (fun a b => headerKey a ≠ headerKey b) fields) :
    lookupLast fields k = fields.find? (fun f => headerKey f == k) := by
  induction fields with
  | nil => rfl
  | cons f fs ih =>
    rw [List.pairwise_cons] at h
    unfold lookupLast
    rw [List.filter_cons]
    by_cases hf : (headerKey f == k) = true
    · rw [if_pos hf]
      have hk : headerKey f = k := by simpa using hf
      have hfil : fs.filter (fun g => headerKey g == k) = [] := by
        rw [List.filter_eq_nil_iff]
        intro g hg
        simp only [beq_iff_eq]
        rw [← hk]
        exact fun he => (h.1 g hg) he.symm
      rw [hfil]
      simp [List.find?_cons, hf]
    · rw [if_neg hf]
      have hfind : List.find? (fun g => headerKey g == k) (f :: fs) =
          List.find? (fun g => headerKey g == k) fs := by
        simp [List.find?_cons, hf]
      rw [hfind]
      exact ih h.2

lemma pick_eq_spec {fields : List String}
    (hnd : List.Pairwise (fun a b => headerKey a ≠ headerKey b) fields)
    (hne : ("" : String) ∉ fields) :
    ∀ cands, pick fields cands = pickAsSpecified fields cands := by
  intro cands
  induction cands with
  | nil => rfl
  | cons c rest ih =>
    simp only [pick, pickAsSpecified]
    rw [lookupLast_eq_find? hnd]
    cases hf : fields.find? (fun f => headerKey f == lowerS c) with
    | none => exact ih
    | some f =>
      have hmem := List.mem_of_find?_eq_some hf
      have hfe : (f == "") = false := by
        simp only [beq_eq_false_iff_ne, ne_eq]
        intro he
        exact hne (he ▸ hmem)
      simp [hfe]

lemma pick_eq_none {fields : List String} :
    ∀ {cands : List String},
      (∀ c ∈ cands, ∀ f ∈ fields, headerKey f ≠ lowerS c) →
      pick fields cands = none := by
  intro cands
  induction cands with
  | nil => intro _; rfl
  | cons c rest ih =>
    intro h
    simp only [pick]
    have hfil : fields.filter (fun f => headerKey f == lowerS c) = [] := by
      rw [List.filter_eq_nil_iff]
      intro f hf
      simp only [beq_iff_eq]
      exact h c (by simp) f hf
    unfold lookupLast
    rw [hfil]
    exact ih (fun c' hc' => h c' (by simp [hc']))

/-- C4: amended — the resolver scans candidates in priority order; when the
headers' case-insensitive trimmed forms are pairwise distinct and no header
is the empty string, it returns the first header whose case-insensitive,
trimmed form matches a candidate, exactly as specified; when no candidate
matches any header it returns `null` and raises no error; and on headers
`["name", "URL"]` with title candidates `["Name", "Title"]` it picks
`"name"`.  (In general — see the counterexample — a duplicated
case-insensitive header form resolves to the **last** matching header, and a
header equal to the empty string is skipped as falsy.) -/
theorem c4_column_resolution :
    (∀ (fields cands : List String),
        List.Pairwise (fun a b => headerKey a ≠ headerKey b) fields →
        ("" : String) ∉ fields →
        pick fields cands = pickAsSpecified fields cands) ∧
    (∀ (fields cands : List String),
        (∀ c ∈ cands, ∀ f ∈ fields, headerKey f ≠ lowerS c) →
        pick fields cands = none) ∧
    pick ["name", "URL"] ["Name", "Title"] = some "name" ∧
    (resolveColumns ["name", "URL"] CONFIG_COLUMNS).title = some "name" := by
  exact ⟨fun fields cands h1 h2 => pick_eq_spec h1 h2 cands,
    fun fields cands h => pick_eq_none h, by decide, by decide⟩

/-- Witness for `c4_column_resolution` on the concrete header set of the
claim's example. -/
theorem c4_column_resolution_witness :
    (("" : String) ∉ (["name", "URL"] : List String)) ∧
      pick ["name", "URL"] ["Name", "Title"] =
        pickAsSpecified ["name", "URL"] ["Name", "Title"] :=
  ⟨by decide,
    c4_column_resolution.1 ["name", "URL"] ["Name", "Title"] (by decide)
      (by decide)⟩

/-- C4 counterexample: with two headers sharing one case-insensitive trimmed
form, the resolver returns the **last** matching header (`Map` construction
overwrites duplicate keys), not the first one the claim describes. -/
theorem c4_duplicate_header_last_wins :
    pick ["Name", "NAME"] ["name"] = some "NAME" ∧
      pickAsSpecified ["Name", "NAME"] ["name"] = some "Name" ∧
      ("NAME" : String) ≠ "Name" :=
  ⟨by decide, by decide, by decide⟩

/-! ### Row-normaliser lemmas -/

lemma charOfNat_toNat {n : Nat} (h : n < 55296) : (Char.ofNat n).toNat = n := by
  unfold Char.ofNat
  rw [dif_pos (Or.inl h)]
  rfl

lemma jsToLower_not_space {c : Char} (h : isJsSpace c = false) :
    isJsSpace (jsToLower c) = false := by
  unfold jsToLower
  by_cases hc : 65 ≤ c.toNat ∧ c.toNat ≤ 90
  · rw [if_pos hc]
    have htn : (Char.ofNat (c.toNat + 32)).toNat = c.toNat + 32 :=
      charOfNat_toNat (by omega)
    simp only [isJsSpace, decide_eq_false_iff_not, List.mem_cons,
      List.not_mem_nil, or_false, htn]
    omega
  · rw [if_neg hc]
    exact h

lemma mk_eq_empty_iff {l : List Char} : (⟨l⟩ : String) = "" ↔ l = [] :=
  String.ext_iff

lemma deriveTitle_of_titleRaw {titleRaw link : String} {i : Nat}
    (h : titleRaw ≠ "") :
    deriveTitle titleRaw link i = .ok (jsTrim titleRaw) := by
  unfold deriveTitle
  rw [if_pos h]

lemma deriveTitle_host {titleRaw link hst : String} {i : Nat}
    (h1 : titleRaw = "") (h2 : link ≠ "") (h3 : urlHostname link = some hst) :
    deriveTitle titleRaw link i = .ok (jsTrim (stripWWW hst)) := by
  subst h1
  unfold deriveTitle
  rw [if_neg (by simp), if_pos h2, h3]

lemma deriveTitle_bad {titleRaw link : String} {i : Nat}
    (h1 : titleRaw = "") (h2 : link ≠ "") (h3 : urlHostname link = none) :
    deriveTitle titleRaw link i = .error () := by
  subst h1
  unfold deriveTitle
  rw [if_neg (by simp), if_pos h2, h3]

lemma deriveTitle_untitled {titleRaw link : String} {i : Nat}
    (h1 : titleRaw = "") (h2 : link = "") :
    deriveTitle titleRaw link i =
      .ok (jsTrim ("Untitled " ++ toString (i + 1))) := by
  subst h1
  subst h2
  unfold deriveTitle
  rw [if_neg (by simp), if_neg (by simp)]

lemma normalizeRow_error {cols : Cols} {row : RawRow} {i : Nat}
    (h : deriveTitle (cell cols.title row) (cell cols.link row) i = .error ()) :
    normalizeRow cols row i = .error () := by
  unfold normalizeRow
  rw [h]

lemma normalizeRow_map_title {cols : Cols} {row : RawRow} {i : Nat} {t : String}
    (h : deriveTitle (cell cols.title row) (cell cols.link row) i = .ok t) :
    (normalizeRow cols row i).map (fun r => r.title) = .ok t := by
  unfold normalizeRow
  rw [h]
  rfl

lemma normalizeRow_ok_inv {cols : Cols} {row : RawRow} {i : Nat}
    {out : CanonicalRow} (h : normalizeRow cols row i = .ok out) :
    deriveTitle (cell cols.title row) (cell cols.link row) i = .ok out.title := by
  unfold normalizeRow at h
  cases hd : deriveTitle (cell cols.title row) (cell cols.link row) i with
  | error e =>
    rw [hd] at h
    simp at h
  | ok t =>
    rw [hd] at h
    obtain rfl := Except.ok.inj h
    rfl

lemma normalizeRow_ok_fields {cols : Cols} {row : RawRow} {i : Nat}
    {out : CanonicalRow} (h : normalizeRow cols row i = .ok out) :
    out.mainTag = (parseList (cell cols.mainTag row)).headD "" ∧
    out.image =
      (if jsTrim (cell cols.logoUrl row) ≠ "" then jsTrim (cell cols.logoUrl row)
       else if jsTrim (cell cols.image row) ≠ "" then jsTrim (cell cols.image row)
       else if out.title ≠ "" then "/logos/" ++ slug out.title ++ ".png"
       else "") := by
  unfold normalizeRow at h
  cases hd : deriveTitle (cell cols.title row) (cell cols.link row) i with
  | error e =>
    rw [hd] at h
    simp at h
  | ok t =>
    rw [hd] at h
    obtain rfl := Except.ok.inj h
    exact ⟨rfl, rfl⟩

lemma jsTrim_eq_self {s : String} (h : ∀ c ∈ s.data, isJsSpace c = false) :
    jsTrim s = s := by
  apply String.ext
  exact trimL_eq_self_of_all h

lemma jsTrim_cons_ne_empty {s : String} {c : Char} {cs : List Char}
    (hdata : s.data = c :: cs) (hc : isJsSpace c = false) : jsTrim s ≠ "" := by
  intro he
  have : trimL s.data = [] := mk_eq_empty_iff.mp he
  rw [hdata] at this
  exact trimL_cons_ne_nil hc this

lemma untitled_ne_empty (s : String) : jsTrim ("Untitled " ++ s) ≠ "" := by
  have hdata : ("Untitled " ++ s).data = 'U' :: ("ntitled ".data ++ s.data) := by
    rw [String.data_append]
    rfl
  exact jsTrim_cons_ne_empty hdata (by decide)

lemma urlHostname_no_space {link hst : String}
    (h : urlHostname link = some hst) : ∀ c ∈ hst.data, isJsSpace c = false := by
  simp only [urlHostname] at h
  split at h
  · exact absurd h (by simp)
  · split at h
    · split at h
      · exact absurd h (by simp)
      · rename_i sch rest heq hok hbad
        obtain rfl := Option.some.inj h
        intro c hc
        obtain ⟨d, hd, rfl⟩ := List.mem_map.mp hc
        have hbad' : ((rest.takeWhile (fun c => !(isHostDelim c))).isEmpty ||
            !((rest.takeWhile (fun c => !(isHostDelim c))).all hostCharOk))
            = false := by
          cases hX : ((rest.takeWhile (fun c => !(isHostDelim c))).isEmpty ||
              !((rest.takeWhile (fun c => !(isHostDelim c))).all hostCharOk))
          · rfl
          · exact absurd hX hbad
        rcases Bool.or_eq_false_iff.mp hbad' with ⟨-, h2⟩
        have hall : (rest.takeWhile (fun c => !(isHostDelim c))).all hostCharOk
            = true := by simpa using h2
        have hdok : hostCharOk d = true := List.all_eq_true.mp hall d hd
        have hdns : isJsSpace d = false := by
          simp only [hostCharOk, Bool.and_eq_true, Bool.not_eq_true'] at hdok
          exact hdok.1.1.1.1.1
        exact jsToLower_not_space hdns
    · exact absurd h (by simp)

lemma mem_stripWWW {s : String} {c : Char} (h : c ∈ (stripWWW s).data) :
    c ∈ s.data := by
  unfold stripWWW at h
  split at h
  · next rest heq =>
    rw [heq]
    simp only [List.mem_cons]
    right; right; right; right
    exact h
  · exact h

lemma derivedLogo_ne_empty (t : String) :
    ("/logos/" ++ slug t ++ ".png" : String) ≠ "" := by
  rw [Ne, String.ext_iff]
  rw [String.data_append, String.data_append]
  simp

deriving instance DecidableEq for Except

/-! ### Concrete inputs for the row-normaliser claims -/

/-- Resolved columns: title and link only. -/
def c1cols : Cols :=
  { title := some "Title", link := some "URL", description := none,
    categories := none, mainTag := none, hiddenTags := none,
    logoUrl := none, image := none }

/-- A raw row with an empty title cell and an unparseable link. -/
def c1rowBad : RawRow := [("Title", ""), ("URL", "not a url")]

/-- A raw row with an explicit title. -/
def c1rowW : RawRow := [("Title", "Foo")]

/-- C1: amended — the title follows the fallback chain explicit (trimmed)
title field → hostname of the link with a leading `"www."` stripped →
synthesized `"Untitled {i+1}"`, and the spec's examples hold; **but** a
malformed link value that cannot be parsed as a URL on a row with an empty
title field does abort normalization: `new URL` throws, the exception
propagates out of the mapping, and no row is produced (the claim's
never-aborts clause is refuted by `c1_malformed_link_aborts`). -/
theorem c1_title_fallback :
    (∀ (cols : Cols) (row : RawRow) (i : Nat),
        cell cols.title row ≠ "" →
        (normalizeRow cols row i).map (fun r => r.title) =
          .ok (jsTrim (cell cols.title row))) ∧
    (∀ (cols : Cols) (row : RawRow) (i : Nat) (hst : String),
        cell cols.title row = "" → cell cols.link row ≠ "" →
        urlHostname (cell cols.link row) = some hst →
        (normalizeRow cols row i).map (fun r => r.title) =
          .ok (jsTrim (stripWWW hst))) ∧
    (∀ (cols : Cols) (row : RawRow) (i : Nat),
        cell cols.title row = "" → cell cols.link row ≠ "" →
        urlHostname (cell cols.link row) = none →
        normalizeRow cols row i = .error ()) ∧
    (∀ (cols : Cols) (row : RawRow) (i : Nat),
        cell cols.title row = "" → cell cols.link row = "" →
        (normalizeRow cols row i).map (fun r => r.title) =
          .ok (jsTrim ("Untitled " ++ toString (i + 1)))) ∧
    deriveTitle "" "https://www.Example.com/x" 0 = .ok "example.com" ∧
    deriveTitle "" "" 0 = .ok "Untitled 1" := by
  refine ⟨fun cols row i h => ?_, fun cols row i hst h1 h2 h3 => ?_,
    fun cols row i h1 h2 h3 => ?_, fun cols row i h1 h2 => ?_,
    by decide, by decide⟩
  · exact normalizeRow_map_title (deriveTitle_of_titleRaw h)
  · exact normalizeRow_map_title (deriveTitle_host h1 h2 h3)
  · exact normalizeRow_error (deriveTitle_bad h1 h2 h3)
  · exact normalizeRow_map_title (deriveTitle_untitled h1 h2)

/-- Witness for `c1_title_fallback` at a concrete row with a title cell. -/
theorem c1_title_fallback_witness :
    cell c1cols.title c1rowW ≠ "" ∧
      (normalizeRow c1cols c1rowW 0).map (fun r => r.title) =
        .ok (jsTrim (cell c1cols.title c1rowW)) :=
  ⟨by decide, c1_title_fallback.1 c1cols c1rowW 0 (by decide)⟩

/-- C1 counterexample: on the row with an empty title cell and the link
`"not a url"` (which `new URL` cannot parse), normalization is aborted by
the thrown `TypeError` — modelled as `Except.error` — and no row at all is
produced, contradicting the claim that the row is still produced with the
synthesized title. -/
theorem c1_malformed_link_aborts :
    normalizeRow c1cols c1rowBad 0 = .error () ∧
      urlHostname "not a url" = none :=
  ⟨by decide, by decide⟩

/-- Resolved columns: title only. -/
def c2cols : Cols :=
  { title := some "Title", link := none, description := none,
    categories := none, mainTag := none, hiddenTags := none,
    logoUrl := none, image := none }

/-- A raw row whose title cell is whitespace only. -/
def c2rowX : RawRow := [("Title", "   ")]

/-- A raw row with an ordinary title. -/
def c2rowW : RawRow := [("Title", "Foo")]

/-- The canonical row produced from `c2rowW`. -/
def c2outW : CanonicalRow :=
  { key := "foo-0", title := "Foo", link := "", description := "",
    mainTag := "", hiddenTags := [], legacyCategories := [],
    image := "/logos/foo.png" }

/-- C2: amended — a produced `CanonicalRow` with a non-empty title always has
a non-empty image reference (possibly a derived path that need not exist),
and the title is non-empty whenever the raw title cell has non-whitespace
content, or is empty with an empty link, or is empty with a link whose
hostname does not reduce to nothing after stripping `"www."`.  (The unamended
claim fails: a whitespace-only title cell yields an empty title and, with no
logo fields, an empty image — see `c2_whitespace_title_empty`.) -/
theorem c2_row_invariant :
    (∀ (cols : Cols) (row : RawRow) (i : Nat) (out : CanonicalRow),
        normalizeRow cols row i = .ok out → out.title ≠ "" →
        out.image ≠ "") ∧
    (∀ (cols : Cols) (row : RawRow) (i : Nat) (out : CanonicalRow),
        normalizeRow cols row i = .ok out →
        jsTrim (cell cols.title row) ≠ "" → out.title ≠ "") ∧
    (∀ (cols : Cols) (row : RawRow) (i : Nat) (out : CanonicalRow),
        normalizeRow cols row i = .ok out →
        cell cols.title row = "" → cell cols.link row = "" →
        out.title ≠ "") ∧
    (∀ (cols : Cols) (row : RawRow) (i : Nat) (out : CanonicalRow)
        (hst : String),
        normalizeRow cols row i = .ok out →
        cell cols.title row = "" →
        urlHostname (cell cols.link row) = some hst →
        stripWWW hst ≠ "" → out.title ≠ "") := by
  refine ⟨fun cols row i out h ht => ?_, fun cols row i out h hne => ?_,
    fun cols row i out h h1 h2 => ?_, fun cols row i out hst h h1 h3 hsw => ?_⟩
  · obtain ⟨-, himg⟩ := normalizeRow_ok_fields h
    rw [himg]
    by_cases hlu : jsTrim (cell cols.logoUrl row) ≠ ""
    · rw [if_pos hlu]; exact hlu
    · rw [if_neg hlu]
      by_cases hll : jsTrim (cell cols.image row) ≠ ""
      · rw [if_pos hll]; exact hll
      · rw [if_neg hll, if_pos ht]
        exact derivedLogo_ne_empty _
  · have htr : cell cols.title row ≠ "" := by
      intro he
      rw [he] at hne
      exact hne rfl
    have hd := normalizeRow_ok_inv h
    rw [deriveTitle_of_titleRaw htr] at hd
    rw [← Except.ok.inj hd]
    exact hne
  · have hd := normalizeRow_ok_inv h
    rw [deriveTitle_untitled h1 h2] at hd
    rw [← Except.ok.inj hd]
    exact untitled_ne_empty _
  · by_cases hl : cell cols.link row = ""
    · rw [hl] at h3
      rw [show urlHostname "" = none from rfl] at h3
      exact Option.noConfusion h3
    · have hd := normalizeRow_ok_inv h
      rw [deriveTitle_host h1 hl h3] at hd
      rw [← Except.ok.inj hd]
      have hns : ∀ c ∈ (stripWWW hst).data, isJsSpace c = false :=
        fun c hc => urlHostname_no_space h3 c (mem_stripWWW hc)
      rw [jsTrim_eq_self hns]
      exact hsw

/-- Witness for `c2_row_invariant` at a concrete produced row. -/
theorem c2_row_invariant_witness :
    normalizeRow c2cols c2rowW 0 = .ok c2outW ∧ c2outW.image ≠ "" :=
  ⟨by decide, c2_row_invariant.1 c2cols c2rowW 0 c2outW (by decide) (by decide)⟩

/-- C2 counterexample: a raw row whose title cell is `"   "` (non-empty but
whitespace only) and which has no logo fields normalizes to a `CanonicalRow`
with an **empty** title and an **empty** image, refuting the invariant as
stated. -/
theorem c2_whitespace_title_empty :
    (normalizeRow c2cols c2rowX 0).map (fun r => (r.title, r.image)) =
      .ok ("", "") := by decide

/-- Resolved columns: title plus both logo fields. -/
def c7cols : Cols :=
  { title := some "Title", link := none, description := none,
    categories := none, mainTag := none, hiddenTags := none,
    logoUrl := some "Logo URL", image := some "Logo" }

/-- A raw row with title `"Foo Bar"` and both logo cells empty. -/
def c7rowW : RawRow := [("Title", "Foo Bar"), ("Logo URL", ""), ("Logo", "")]

/-- The canonical row produced from `c7rowW`. -/
def c7outW : CanonicalRow :=
  { key := "foo-bar-0", title := "Foo Bar", link := "", description := "",
    mainTag := "", hiddenTags := [], legacyCategories := [],
    image := "/logos/foo-bar.png" }

/-- A raw row whose logo-URL cell is a single space. -/
def c7rowX : RawRow := [("Title", "T"), ("Logo URL", " "), ("Logo", "b.png")]

/-- C7: amended — the image is resolved by strict priority on **trimmed**
fields: the logo-URL field if non-empty after trimming, else the legacy logo
field if non-empty after trimming, else the derived path
`"/logos/{slug(title)}.png"` when the title is non-empty (and the empty
string for the degenerate empty-title row); with all image fields empty and
title `"Foo Bar"` the image is `"/logos/foo-bar.png"`.  (The unamended
claim fails on a whitespace-only logo-URL field — see
`c7_whitespace_logo_url`.) -/
theorem c7_image_priority :
    (∀ (cols : Cols) (row : RawRow) (i : Nat) (out : CanonicalRow),
        normalizeRow cols row i = .ok out →
        out.image =
          (if jsTrim (cell cols.logoUrl row) ≠ "" then
            jsTrim (cell cols.logoUrl row)
          else if jsTrim (cell cols.image row) ≠ "" then
            jsTrim (cell cols.image row)
          else if out.title ≠ "" then "/logos/" ++ slug out.title ++ ".png"
          else "")) ∧
    (normalizeRow c7cols c7rowW 0).map (fun r => r.image) =
      .ok "/logos/foo-bar.png" ∧
    slug "Foo Bar" = "foo-bar" := by
  exact ⟨fun cols row i out h => (normalizeRow_ok_fields h).2,
    by decide, by decide⟩

/-- Witness for `c7_image_priority` at a concrete produced row. -/
theorem c7_image_priority_witness :
    normalizeRow c7cols c7rowW 0 = .ok c7outW ∧
      c7outW.image =
        (if jsTrim (cell c7cols.logoUrl c7rowW) ≠ "" then
          jsTrim (cell c7cols.logoUrl c7rowW)
        else if jsTrim (cell c7cols.image c7rowW) ≠ "" then
          jsTrim (cell c7cols.image c7rowW)
        else if c7outW.title ≠ "" then "/logos/" ++ slug c7outW.title ++ ".png"
        else "") :=
  ⟨by decide, c7_image_priority.1 c7cols c7rowW 0 c7outW (by decide)⟩

/-- C7 counterexample: the logo-URL cell `" "` is a non-empty field, so the
claim's strict priority dictates that it be the image; the code trims it to
empty and falls through to the legacy logo `"b.png"`. -/
theorem c7_whitespace_logo_url :
    (normalizeRow c7cols c7rowX 0).map (fun r => r.image) = .ok "b.png" ∧
      (" " : String) ≠ "" ∧ ("b.png" : String) ≠ " " :=
  ⟨by decide, by decide, by decide⟩

/-! ### C10: main-tag truncation -/

/-- Resolved columns: title and main tag. -/
def c10cols : Cols :=
  { title := some "Title", link := none, description := none,
    categories := none, mainTag := some "Main tag", hiddenTags := none,
    logoUrl := none, image := none }

/-- A raw row whose main-tag cell holds two delimiter-separated values. -/
def c10row : RawRow := [("Title", "T"), ("Main tag", "Art; Music")]

/-- The canonical row produced from `c10row`: only `"Art"` survives. -/
def c10out : CanonicalRow :=
  { key := "t-0", title := "T", link := "", description := "",
    mainTag := "Art", hiddenTags := [], legacyCategories := [],
    image := "/logos/t.png" }

/-- C10: for every raw row the normalizer keeps only the **first**
delimiter-separated value of the main-tag cell as `mainTag` (the empty string
when the cell is empty or the column is unresolved); every main-tag-axis
vocabulary entry is some row's `mainTag`, so the remaining values are
discarded: on the concrete row with cell `"Art; Music"` the value `"Music"`
appears neither in the vocabulary, nor in tag filtering (selecting it
matches nothing while `"Art"` matches), nor in the row's searchable text. -/
theorem c10_main_tag_first_only :
    (∀ (cols : Cols) (row : RawRow) (i : Nat) (out : CanonicalRow),
        normalizeRow cols row i = .ok out →
        out.mainTag = (parseList (cell cols.mainTag row)).headD "") ∧
    (∀ (rows : List CanonicalRow) (t : String),
        t ∈ allFilterTags rows true → ∃ r ∈ rows, r.mainTag = t ∧ t ≠ "") ∧
    normalizeRow c10cols c10row 0 = .ok c10out ∧
    parseList "Art; Music" = ["Art", "Music"] ∧
    c10out.mainTag = "Art" ∧
    vocabulary [c10out] = ["Art"] ∧
    ("Music" ∉ vocabulary [c10out]) ∧
    filteredRows [c10out] ["Music"] true "" = [] ∧
    filteredRows [c10out] ["Art"] true "" = [c10out] ∧
    containsSub (lowerS "Music").data (haystackOf c10out).data = false := by
  refine ⟨fun cols row i out h => (normalizeRow_ok_fields h).1,
    fun rows t h => mem_allFilterTags_main.mp h,
    by decide, by decide, by decide, by decide, by decide, by decide,
    by decide, by decide⟩

/-- Witness for `c10_main_tag_first_only` at the concrete two-value row. -/
theorem c10_main_tag_first_only_witness :
    normalizeRow c10cols c10row 0 = .ok c10out ∧
      c10out.mainTag = (parseList (cell c10cols.mainTag c10row)).headD "" :=
  ⟨by decide, c10_main_tag_first_only.1 c10cols c10row 0 c10out (by decide)⟩

/-! ### C6: filter and search composition -/

/-- The tag-filter predicate as the specification words it (spec-side
definition, for comparison with `filteredRows`): a row passes iff no tag is
selected, or its active tag axis intersects the selected set under slugified
comparison. -/
def passesTagFilter (selectedTags : List String) (useMainTagFilters : Bool)
    (r : CanonicalRow) : Bool :=
  selectedTags.isEmpty ||
    (if useMainTagFilters then
      r.mainTag != "" && (selectedTags.map slug).contains (slug r.mainTag)
    else
      r.legacyCategories.any (fun c => (selectedTags.map slug).contains (slug c)))

/-- The search predicate as the amended specification words it (spec-side
definition): a row passes iff the trimmed query is empty, or the trimmed
query, lowercased, occurs in the lowercased haystack. -/
def passesSearch (query : String) (r : CanonicalRow) : Bool :=
  jsTrim query == "" || containsSub (qNorm query).data (haystackOf r).data

/-- C6: amended — the filtered result is exactly the rows passing the tag
filter AND the search filter, in the original load order (a sublist of the
input); the search filter tests the **trimmed** query (lowercased) for
substring occurrence in the concatenated searchable text, rather than the
raw query the claim describes (see `c6_untrimmed_query`). -/
theorem c6_filter_search :
    ∀ (rows : List CanonicalRow) (selectedTags : List String)
      (useMainTagFilters : Bool) (query : String),
      filteredRows rows selectedTags useMainTagFilters query =
        rows.filter (fun r =>
          passesTagFilter selectedTags useMainTagFilters r &&
            passesSearch query r) ∧
      (filteredRows rows selectedTags useMainTagFilters query).Sublist rows := by
  intro rows sel um q
  have key : filteredRows rows sel um q =
      rows.filter (fun r =>
        passesTagFilter sel um r && passesSearch q r) := by
    have hbcases : ((jsTrim q != "") = true ∧ (jsTrim q == "") = false) ∨
        ((jsTrim q != "") = false ∧ (jsTrim q == "") = true) := by
      cases hb : (jsTrim q == "")
      · exact Or.inl ⟨by simp [bne, hb], rfl⟩
      · exact Or.inr ⟨by simp [bne, hb], rfl⟩
    cases um <;>
      rcases Bool.eq_false_or_eq_true sel.isEmpty with hsel | hsel <;>
        rcases hbcases with ⟨hbne, hbeq⟩ | ⟨hbne, hbeq⟩ <;>
          simp [filteredRows, passesTagFilter, passesSearch, hsel, hbne,
            hbeq, List.filter_filter, Bool.and_comm]
  refine ⟨key, ?_⟩
  rw [key]
  exact List.filter_sublist rows

/-- A canonical row with title `"x"` and no other searchable content. -/
def c6row : CanonicalRow :=
  { key := "x-0", title := "x", link := "", description := "",
    mainTag := "", hiddenTags := [], legacyCategories := [],
    image := "/logos/x.png" }

/-- C6 counterexample: with the query `" x "` (non-empty, not a substring of
the haystack `"x |  | "` even case-insensitively) the row is nevertheless
returned, because the code trims the query to `"x"` before matching — the
claim's search condition, stated on the untrimmed query, is refuted. -/
theorem c6_untrimmed_query :
    filteredRows [c6row] [] true " x " = [c6row] ∧
      containsSub (lowerS " x ").data (haystackOf c6row).data = false ∧
      (" x " : String) ≠ "" :=
  ⟨by decide, by decide, by decide⟩

/-! ### C8: stale-load discard -/

/-- A row committed by the fresh load B in the stale-load scenario. -/
def c8row : CanonicalRow :=
  { key := "b-0", title := "b", link := "", description := "",
    mainTag := "", hiddenTags := [], legacyCategories := [],
    image := "/logos/b.png" }

/-- The state after load B commits rows `[c8row]` (B started after aborting
A; its own `aborted` flag is still false). -/
def c8stateB : UIState :=
  commitLoad false (LoadOutcome.success [c8row])
    (startLoad { rows := [], loading := true, error := "" })

/-- C8: amended — a superseded (aborted) load's **successful** result is
discarded entirely: its guarded commit leaves the state untouched, so the
committed row set always reflects the newer load; and even an aborted load's
failure path never changes the row set.  However the terminal-failure commit
(`setError(...); setLoading(false)`, part_001 lines 204-205) carries no
`aborted` guard, so a stale failing load still overwrites the error message
and clears the loading flag (see `c8_stale_failure_overwrites`). -/
theorem c8_stale_load :
    (∀ (s : UIState) (rows : List CanonicalRow),
        commitLoad true (LoadOutcome.success rows) s = s) ∧
    (∀ s : UIState, (commitLoad true LoadOutcome.failure s).rows = s.rows) ∧
    (∀ s : UIState,
        (commitLoad true LoadOutcome.failure s).error = loadFailMsg ∧
          (commitLoad true LoadOutcome.failure s).loading = false) :=
  ⟨fun _ _ => rfl, fun _ => rfl, fun _ => ⟨rfl, rfl⟩⟩

/-- C8 counterexample: load A is aborted (load B triggered before it
resolved), B commits successfully, and then A's terminal failure arrives
late: the unguarded failure commit overwrites B's clean error state with A's
error message and rewrites the loading flag — the state no longer reflects
B alone, refuting the claim that a stale result is never applied. -/
theorem c8_stale_failure_overwrites :
    c8stateB.error = "" ∧
      (commitLoad true LoadOutcome.failure c8stateB).error = loadFailMsg ∧
      loadFailMsg ≠ "" ∧
      (commitLoad true LoadOutcome.failure c8stateB).rows = [c8row] :=
  ⟨by decide, by decide, by decide, by decide⟩

/-! ### C9: the fetch relay -/

/-- The relay's 400 response. -/
def relay400 : RelayResponse :=
  { status := 400, body := "Missing ?url= parameter"
    contentType := none, cacheControl := none }

/-- The relay's 500 response. -/
def relay500 : RelayResponse :=
  { status := 500, body := "Fetch failed"
    contentType := none, cacheControl := none }

/-- The relay's 502 response for an upstream status. -/
def relay502 (ustatus : Nat) : RelayResponse :=
  { status := 502, body := "Upstream error (" ++ toString ustatus ++ ")"
    contentType := none, cacheControl := none }

/-- The relay's passthrough response: the upstream body verbatim with the
permissive cache policy. -/
def relay200 (ubody : String) : RelayResponse :=
  { status := 200, body := ubody
    contentType := some "text/csv; charset=utf-8"
    cacheControl := some "public, s-maxage=300, stale-while-revalidate=86400" }

/-- C9: amended — the relay returns HTTP 400 when the `url` query parameter
is missing **or present but empty** (the falsy guard `if (!target)` treats
both alike); for a non-empty parameter it returns 500 when the upstream
fetch throws, 502 when the upstream completes non-ok, and otherwise the
upstream body verbatim with status 200 and the permissive cache policy
`public, s-maxage=300, stale-while-revalidate=86400`. -/
theorem c9_relay_codes :
    ∀ (u ubody : String) (ustatus : Nat) (f : FetchOutcome),
      handler none f = relay400 ∧
      handler (some "") f = relay400 ∧
      (u ≠ "" →
        handler (some u) FetchOutcome.throws = relay500 ∧
        handler (some u) (FetchOutcome.responds false ustatus ubody) =
          relay502 ustatus ∧
        handler (some u) (FetchOutcome.responds true ustatus ubody) =
          relay200 ubody) := by
  intro u ubody ustatus f
  refine ⟨rfl, rfl, fun hu => ⟨?_, ?_, ?_⟩⟩
  · simp only [handler]
    rw [if_neg hu]
    rfl
  · simp only [handler]
    rw [if_neg hu]
    rfl
  · simp only [handler]
    rw [if_neg hu]
    rfl

/-- Witness for `c9_relay_codes` at a concrete non-empty URL. -/
theorem c9_relay_codes_witness :
    ("https://x" : String) ≠ "" ∧
      handler (some "https://x") FetchOutcome.throws = relay500 :=
  ⟨by decide,
    (c9_relay_codes "https://x" "b" 404 FetchOutcome.throws).2.2
      (by decide) |>.1⟩

/-- C9 counterexample: with the `url` parameter present but empty and an
upstream that would respond ok with body `"hello"`, the claim demands the
body verbatim with status 200; the handler returns 400 instead, because the
falsy check conflates an empty parameter with a missing one. -/
theorem c9_empty_url_param :
    (handler (some "") (FetchOutcome.responds true 200 "hello")).status = 400 ∧
      (handler (some "") (FetchOutcome.responds true 200 "hello")).body ≠
        "hello" ∧ (400 : Nat) ≠ 200 :=
  ⟨by decide, by decide, by decide⟩
